import Mathlib

/-!
Verification of the PairwiseDistanceAnalyzer specification for the
1KB260 course-material repository.  The repository's notebook delegates the
distance-matrix computation to `get_all_distances` / `get_distances` and the
histogram to `plt.hist`; the analyzer operations below are modelled from the
spec (section 4), which defines them precisely.  Positions are embedded as
real triples; histogram values as rationals (exact arithmetic).
-/

/-- The single error kind of the spec's error taxonomy (section 7). -/
inductive AnalyzerError where
  | invalidInput
deriving DecidableEq, Repr

/-- An atom: chemical element symbol and a 3-D position (spec section 3). -/
structure Atom where
  symbol : String
  pos : ℝ × ℝ × ℝ

/-- An AtomSet is an ordered sequence of atoms (spec section 3). -/
abbrev AtomSet := List Atom

/-- Squared Euclidean distance between two 3-D positions. -/
def sqDist (p q : ℝ × ℝ × ℝ) : ℝ :=
  (p.1 - q.1) ^ 2 + (p.2.1 - q.2.1) ^ 2 + (p.2.2 - q.2.2) ^ 2

/-- Euclidean distance between two 3-D positions. -/
noncomputable def euclDist (p q : ℝ × ℝ × ℝ) : ℝ :=
  Real.sqrt (sqDist p q)

/-- Default atom used to totalize position lookup; claims only ever query
indices below the AtomSet length. -/
def defaultAtom : Atom := ⟨"", (0, 0, 0)⟩

/-- Position of the atom at index `i`. -/
def posAt (atoms : AtomSet) (i : ℕ) : ℝ × ℝ × ℝ :=
  (atoms.getD i defaultAtom).pos

/-- Modelled from the spec: the DistanceMatrix derived from an AtomSet;
entry (i, j) is the Euclidean distance between atom i and atom j
(spec section 4.1, `compute_distance_matrix` output clause; the notebook
delegates this to the external `get_all_distances`). -/
noncomputable def distMatrix (atoms : AtomSet) (i j : ℕ) : ℝ :=
  euclDist (posAt atoms i) (posAt atoms j)

/-- Modelled from the spec: `compute_distance_matrix(atoms) -> DistanceMatrix`,
failing with InvalidInput when N = 0 (spec section 4.1; in this embedding every
atom carries a well-defined 3-D position by type, so the malformed-position
error condition is unrepresentable). -/
noncomputable def compute_distance_matrix (atoms : AtomSet) :
    Except AnalyzerError (ℕ → ℕ → ℝ) :=
  if atoms.length = 0 then Except.error AnalyzerError.invalidInput
  else Except.ok (distMatrix atoms)

/-- Modelled from the spec: the row-major flattening of the N×N distance
matrix (the notebook's `all_distances.flatten()`): element `t` of the flat
sequence is matrix entry (t / N, t % N). -/
noncomputable def flattenMatrix (atoms : AtomSet) : List ℝ :=
  (List.range (atoms.length * atoms.length)).map fun t =>
    distMatrix atoms (t / atoms.length) (t % atoms.length)

/-- Modelled from the spec: the single-pair distance query `get_distances(i, j)`
of the notebook, the Euclidean distance between atom i's and atom j's
positions, written directly from the spec's distance formula. -/
noncomputable def get_distances (atoms : AtomSet) (i j : ℕ) : ℝ :=
  Real.sqrt (((posAt atoms i).1 - (posAt atoms j).1) ^ 2 +
    ((posAt atoms i).2.1 - (posAt atoms j).2.1) ^ 2 +
    ((posAt atoms i).2.2 - (posAt atoms j).2.2) ^ 2)

/-- A histogram bin: lower bound, upper bound, count (spec section 3). -/
structure Bin where
  lower : ℚ
  upper : ℚ
  count : ℕ
deriving DecidableEq, Repr

/-- The k-th bin edge for a range partitioned into `bin_count` equal bins. -/
def binEdge (min_value max_value : ℚ) (bin_count : ℕ) (k : ℕ) : ℚ :=
  min_value + (k : ℚ) * ((max_value - min_value) / (bin_count : ℚ))

/-- Bin membership: half-open `[lower, upper)` for every bin except the final
bin, which is closed `[lower, upper]` (spec section 4.1). -/
def inBin (min_value max_value : ℚ) (bin_count : ℕ) (k : ℕ) (v : ℚ) : Bool :=
  if k + 1 = bin_count then
    decide (binEdge min_value max_value bin_count k ≤ v ∧
      v ≤ binEdge min_value max_value bin_count (k + 1))
  else
    decide (binEdge min_value max_value bin_count k ≤ v ∧
      v < binEdge min_value max_value bin_count (k + 1))

/-- Modelled from the spec: `build_histogram(values, bin_count, min_value,
max_value) -> Histogram` (spec section 4.1; the notebook delegates this to
the external `plt.hist`).  Fails with InvalidInput when `bin_count <= 0` or
`min_value >= max_value`; otherwise partitions `[min_value, max_value]` into
`bin_count` equal-width bins and counts the in-range values per bin. -/
def build_histogram (values : List ℚ) (bin_count : ℤ)
    (min_value max_value : ℚ) : Except AnalyzerError (List Bin) :=
  if bin_count ≤ 0 ∨ max_value ≤ min_value then
    Except.error AnalyzerError.invalidInput
  else
    Except.ok ((List.range bin_count.toNat).map fun k =>
      { lower := binEdge min_value max_value bin_count.toNat k
        upper := binEdge min_value max_value bin_count.toNat (k + 1)
        count := values.countP (inBin min_value max_value bin_count.toNat k) })

/-- The two-atom AtomSet of the spec's concrete distance example. -/
noncomputable def atomsTwo : AtomSet :=
  [⟨"A", (0, 0, 0)⟩, ⟨"B", (3, 4, 0)⟩]

/-- C3: `compute_distance_matrix` fails with InvalidInput on an AtomSet with
N = 0 atoms, and no partial result is returned on failure.  (In this
embedding every atom carries a well-defined 3-D position by type, so the
malformed-position error condition cannot arise.) -/
theorem compute_distance_matrix_empty_error (atoms : AtomSet)
    (h : atoms.length = 0) :
    compute_distance_matrix atoms = Except.error AnalyzerError.invalidInput ∧
    ∀ D, compute_distance_matrix atoms ≠ Except.ok D := by
  have hc : compute_distance_matrix atoms =
      Except.error AnalyzerError.invalidInput := by
    unfold compute_distance_matrix
    simp [h]
  refine ⟨hc, fun D hD => ?_⟩
  rw [hc] at hD
  exact Except.noConfusion hD

/-- Witness for C3 at the empty AtomSet. -/
theorem compute_distance_matrix_empty_error_witness :
    ([] : AtomSet).length = 0 ∧
    compute_distance_matrix ([] : AtomSet) =
      Except.error AnalyzerError.invalidInput :=
  ⟨rfl, (compute_distance_matrix_empty_error [] rfl).1⟩

/-- C4: `build_histogram` fails with InvalidInput when `bin_count <= 0` or
`min_value >= max_value`, and no partial result is returned on failure. -/
theorem build_histogram_invalid_error (values : List ℚ) (bin_count : ℤ)
    (mn mx : ℚ) (h : bin_count ≤ 0 ∨ mx ≤ mn) :
    build_histogram values bin_count mn mx =
      Except.error AnalyzerError.invalidInput ∧
    ∀ bins, build_histogram values bin_count mn mx ≠ Except.ok bins := by
  have hc : build_histogram values bin_count mn mx =
      Except.error AnalyzerError.invalidInput := by
    unfold build_histogram
    simp [h]
  refine ⟨hc, fun bins hB => ?_⟩
  rw [hc] at hB
  exact Except.noConfusion hB

/-- Witness for C4 at `bin_count = 0`. -/
theorem build_histogram_invalid_error_witness :
    ((0 : ℤ) ≤ 0 ∨ (1 : ℚ) ≤ 0) ∧
    build_histogram [1] 0 0 1 = Except.error AnalyzerError.invalidInput :=
  ⟨Or.inl le_rfl,
    (build_histogram_invalid_error [1] 0 0 1 (Or.inl le_rfl)).1⟩

/-- C8: `compute_distance_matrix` is deterministic: on equal (unchanged)
AtomSets it yields identical distance matrices — in this pure embedding the
operation is a function of its input, so determinism holds exactly. -/
theorem compute_distance_matrix_deterministic (a b : AtomSet) (h : a = b) :
    compute_distance_matrix a = compute_distance_matrix b := by
  rw [h]

/-- Witness for C8 at the two-atom AtomSet. -/
theorem compute_distance_matrix_deterministic_witness :
    atomsTwo = atomsTwo ∧
    compute_distance_matrix atomsTwo = compute_distance_matrix atomsTwo :=
  ⟨rfl, compute_distance_matrix_deterministic atomsTwo atomsTwo rfl⟩

/-- C6: for the two-atom AtomSet with positions (0,0,0) and (3,4,0),
`compute_distance_matrix` succeeds and both off-diagonal entries of the
returned 2×2 matrix are exactly 5.0. -/
theorem two_atom_distance_exact :
    compute_distance_matrix atomsTwo = Except.ok (distMatrix atomsTwo) ∧
    atomsTwo.length = 2 ∧
    distMatrix atomsTwo 0 1 = 5 ∧ distMatrix atomsTwo 1 0 = 5 := by
  have h01 : distMatrix atomsTwo 0 1 = Real.sqrt 25 := by
    unfold distMatrix euclDist sqDist posAt atomsTwo defaultAtom
    norm_num
  have h10 : distMatrix atomsTwo 1 0 = Real.sqrt 25 := by
    unfold distMatrix euclDist sqDist posAt atomsTwo defaultAtom
    norm_num
  have h5 : Real.sqrt 25 = 5 := by
    rw [show (25 : ℝ) = 5 ^ 2 by norm_num,
      Real.sqrt_sq (by norm_num : (0 : ℝ) ≤ 5)]
  refine ⟨?_, ?_, ?_, ?_⟩
  · unfold compute_distance_matrix
    simp [atomsTwo]
  · rfl
  · rw [h01, h5]
  · rw [h10, h5]

/-- C10: for valid atom indices i, j, the single-pair query `get_distances`
agrees with entry (i, j) of the full matrix returned by
`compute_distance_matrix`. -/
theorem get_distances_matches_matrix (atoms : AtomSet) (i j : ℕ)
    (hi : i < atoms.length) (hj : j < atoms.length) :
    get_distances atoms i j = distMatrix atoms i j ∧
    compute_distance_matrix atoms = Except.ok (distMatrix atoms) := by
  constructor
  · rfl
  · unfold compute_distance_matrix
    have hne : atoms.length ≠ 0 := by omega
    simp [hne]

/-- Witness for C10 at the two-atom AtomSet, indices 0 and 1. -/
theorem get_distances_matches_matrix_witness :
    0 < atomsTwo.length ∧ 1 < atomsTwo.length ∧
    get_distances atomsTwo 0 1 = distMatrix atomsTwo 0 1 :=
  ⟨by decide, by decide,
    (get_distances_matches_matrix atomsTwo 0 1 (by decide) (by decide)).1⟩

/-- C1: for every AtomSet with N ≥ 1 atoms, `compute_distance_matrix`
returns the distance matrix, which is symmetric, non-negative in every
entry, has zero diagonal, and whose entry (i, j) is the Euclidean distance
sqrt of the sum over the 3 axes of the squared coordinate differences. -/
theorem distance_matrix_props (atoms : AtomSet) (h1 : 1 ≤ atoms.length) :
    compute_distance_matrix atoms = Except.ok (distMatrix atoms) ∧
    ∀ i j, ∀ hi : i < atoms.length, ∀ hj : j < atoms.length,
      distMatrix atoms i j = distMatrix atoms j i ∧
      0 ≤ distMatrix atoms i j ∧
      distMatrix atoms i i = 0 ∧
      distMatrix atoms i j = Real.sqrt
        (((atoms.get ⟨i, hi⟩).pos.1 - (atoms.get ⟨j, hj⟩).pos.1) ^ 2 +
          ((atoms.get ⟨i, hi⟩).pos.2.1 - (atoms.get ⟨j, hj⟩).pos.2.1) ^ 2 +
          ((atoms.get ⟨i, hi⟩).pos.2.2 - (atoms.get ⟨j, hj⟩).pos.2.2) ^ 2) := by
  constructor
  · unfold compute_distance_matrix
    have hne : atoms.length ≠ 0 := by omega
    simp [hne]
  · intro i j hi hj
    refine ⟨?_, ?_, ?_, ?_⟩
    · unfold distMatrix euclDist
      congr 1
      unfold sqDist
      ring
    · exact Real.sqrt_nonneg _
    · have hz : sqDist (posAt atoms i) (posAt atoms i) = 0 := by
        unfold sqDist
        ring
      unfold distMatrix euclDist
      rw [hz, Real.sqrt_zero]
    · unfold distMatrix euclDist sqDist posAt
      rw [List.getD_eq_get atoms defaultAtom hi, List.getD_eq_get atoms defaultAtom hj]

/-- Witness for C1 at the two-atom AtomSet, indices 0 and 1. -/
theorem distance_matrix_props_witness :
    1 ≤ atomsTwo.length ∧
    compute_distance_matrix atomsTwo = Except.ok (distMatrix atomsTwo) ∧
    distMatrix atomsTwo 0 1 = distMatrix atomsTwo 1 0 ∧
    0 ≤ distMatrix atomsTwo 0 1 ∧
    distMatrix atomsTwo 0 0 = 0 := by
  have h := distance_matrix_props atomsTwo (by decide)
  have h01 := h.2 0 1 (by decide) (by decide)
  exact ⟨by decide, h.1, h01.1, h01.2.1, h01.2.2.1⟩

/-- C9: the flattened distance sequence has exactly N*N entries; the entry at
flat position i*N + j is matrix entry (i, j); the matrix is symmetric with a
zero diagonal, so each unordered pair of distinct atoms contributes its
distance at the two distinct flat positions (i, j) and (j, i), and each atom
contributes one zero self-distance. -/
theorem flatten_matrix_structure (atoms : AtomSet) :
    (flattenMatrix atoms).length = atoms.length * atoms.length ∧
    ∀ i j, ∀ hi : i < atoms.length, ∀ hj : j < atoms.length,
      ∀ hidx : i * atoms.length + j < (flattenMatrix atoms).length,
      (flattenMatrix atoms).get ⟨i * atoms.length + j, hidx⟩ =
        distMatrix atoms i j ∧
      distMatrix atoms i j = distMatrix atoms j i ∧
      distMatrix atoms i i = 0 ∧
      (i ≠ j → i * atoms.length + j ≠ j * atoms.length + i) := by
  have hlen : (flattenMatrix atoms).length = atoms.length * atoms.length := by
    unfold flattenMatrix
    simp
  refine ⟨hlen, ?_⟩
  intro i j hi hj hidx
  have hn : 0 < atoms.length := by omega
  refine ⟨?_, ?_, ?_, ?_⟩
  · unfold flattenMatrix
    simp only [List.get_eq_getElem, List.getElem_map, List.getElem_range]
    have hdiv : (i * atoms.length + j) / atoms.length = i := by
      rw [Nat.mul_comm i atoms.length, Nat.mul_add_div hn,
        Nat.div_eq_of_lt hj, Nat.add_zero]
    have hmod : (i * atoms.length + j) % atoms.length = j := by
      rw [Nat.mul_comm i atoms.length, Nat.mul_add_mod,
        Nat.mod_eq_of_lt hj]
    rw [hdiv, hmod]
  · unfold distMatrix euclDist
    congr 1
    unfold sqDist
    ring
  · have hz : sqDist (posAt atoms i) (posAt atoms i) = 0 := by
      unfold sqDist
      ring
    unfold distMatrix euclDist
    rw [hz, Real.sqrt_zero]
  · intro hne heq
    have hcast := congrArg (Nat.cast : ℕ → ℤ) heq
    push_cast at hcast
    have hz : ((i : ℤ) - j) * ((atoms.length : ℤ) - 1) = 0 := by
      ring_nf
      ring_nf at hcast
      linarith
    rcases mul_eq_zero.mp hz with h0 | h0
    · have : i = j := by
        have : (i : ℤ) = j := by linarith
        exact_mod_cast this
      exact hne this
    · have hone : atoms.length = 1 := by
        have : (atoms.length : ℤ) = 1 := by linarith
        exact_mod_cast this
      omega

/-- Witness for C9 at the two-atom AtomSet, indices 0 and 1. -/
theorem flatten_matrix_structure_witness :
    0 < atomsTwo.length ∧ 1 < atomsTwo.length ∧
    0 * atomsTwo.length + 1 < (flattenMatrix atomsTwo).length ∧
    distMatrix atomsTwo 0 1 = distMatrix atomsTwo 1 0 ∧
    (0 ≠ 1 → 0 * atomsTwo.length + 1 ≠ 1 * atomsTwo.length + 0) := by
  have hf := flatten_matrix_structure atomsTwo
  have hidx : 0 * atomsTwo.length + 1 < (flattenMatrix atomsTwo).length := by
    rw [hf.1]
    decide
  have h01 := hf.2 0 1 (by decide) (by decide) hidx
  exact ⟨by decide, by decide, hidx, h01.2.1, h01.2.2.2⟩

/-- C5: bins are half-open `[lower, upper)` except the final closed bin; on
values [1.0, 1.5, 2.0, 2.5] with 2 bins over [1.0, 3.0] the counts are 2 and
2, and the boundary value 2.0 falls in the second bin, not the first. -/
theorem build_histogram_halfopen_example :
    build_histogram [1, 3 / 2, 2, 5 / 2] 2 1 3 =
      Except.ok [⟨1, 2, 2⟩, ⟨2, 3, 2⟩] ∧
    inBin 1 3 2 0 2 = false ∧ inBin 1 3 2 1 2 = true := by
  have ht : (2 : ℤ).toNat = 2 := rfl
  refine ⟨?_, ?_, ?_⟩
  · unfold build_histogram
    rw [if_neg (by norm_num), ht]
    norm_num [List.range_succ, inBin, binEdge, List.countP_cons,
      List.countP_nil]
  · norm_num [inBin, binEdge]
  · norm_num [inBin, binEdge]

/-- On valid input, `build_histogram` succeeds with the explicit bin list. -/
lemma build_histogram_ok (values : List ℚ) (bin_count : ℤ) (mn mx : ℚ)
    (hB : 0 < bin_count) (hmm : mn < mx) :
    build_histogram values bin_count mn mx =
      Except.ok ((List.range bin_count.toNat).map fun k =>
        { lower := binEdge mn mx bin_count.toNat k
          upper := binEdge mn mx bin_count.toNat (k + 1)
          count := values.countP (inBin mn mx bin_count.toNat k) }) := by
  unfold build_histogram
  rw [if_neg]
  push_neg
  exact ⟨by omega, by linarith⟩

/-- Indexing into a mapped range list. -/
lemma get_range_map {α : Type} (B : ℕ) (f : ℕ → α) (k : ℕ)
    (hk : k < ((List.range B).map f).length) :
    ((List.range B).map f).get ⟨k, hk⟩ = f k := by
  simp [List.get_eq_getElem]

/-- Consecutive bin edges differ by the common bin width. -/
lemma binEdge_succ_sub (mn mx : ℚ) (B k : ℕ) :
    binEdge mn mx B (k + 1) - binEdge mn mx B k = (mx - mn) / (B : ℚ) := by
  unfold binEdge
  push_cast
  ring

/-- Bin edges are monotone when the width is non-negative. -/
lemma binEdge_le_binEdge (mn mx : ℚ) (B : ℕ)
    (hw : 0 ≤ (mx - mn) / (B : ℚ)) {k l : ℕ} (hkl : k ≤ l) :
    binEdge mn mx B k ≤ binEdge mn mx B l := by
  unfold binEdge
  have hc : (k : ℚ) ≤ (l : ℚ) := by exact_mod_cast hkl
  have := mul_le_mul_of_nonneg_right hc hw
  linarith

/-- The first bin edge is the range minimum. -/
lemma binEdge_zero (mn mx : ℚ) (B : ℕ) : binEdge mn mx B 0 = mn := by
  unfold binEdge
  simp

/-- The last bin edge is the range maximum. -/
lemma binEdge_last (mn mx : ℚ) (B : ℕ) (hB : 0 < B) :
    binEdge mn mx B B = mx := by
  unfold binEdge
  have hne : (B : ℚ) ≠ 0 := Nat.cast_ne_zero.mpr (by omega)
  field_simp

/-- C7: the histogram produced on valid input has `bin_count` bins which are
of equal width (max_value - min_value) / bin_count, contiguous,
non-overlapping, and together partition [min_value, max_value]. -/
theorem build_histogram_bins_structure (values : List ℚ) (bin_count : ℤ)
    (mn mx : ℚ) (hB : 0 < bin_count) (hmm : mn < mx) :
    ∃ bins, build_histogram values bin_count mn mx = Except.ok bins ∧
      (bins.length : ℤ) = bin_count ∧
      (∀ k, ∀ hk : k < bins.length,
        (bins.get ⟨k, hk⟩).upper - (bins.get ⟨k, hk⟩).lower =
          (mx - mn) / (bin_count : ℚ)) ∧
      (∀ k, ∀ hk1 : k + 1 < bins.length, ∀ hk : k < bins.length,
        (bins.get ⟨k + 1, hk1⟩).lower = (bins.get ⟨k, hk⟩).upper) ∧
      (∀ k l, ∀ hk : k < bins.length, ∀ hl : l < bins.length, k < l →
        (bins.get ⟨k, hk⟩).upper ≤ (bins.get ⟨l, hl⟩).lower) ∧
      (∀ h0 : 0 < bins.length, (bins.get ⟨0, h0⟩).lower = mn) ∧
      (∀ hlast : bins.length - 1 < bins.length,
        (bins.get ⟨bins.length - 1, hlast⟩).upper = mx) := by
  have hBpos : 0 < bin_count.toNat := by omega
  have hcast : ((bin_count.toNat : ℕ) : ℚ) = (bin_count : ℚ) := by
    have h := Int.toNat_of_nonneg hB.le
    exact_mod_cast h
  have hw : 0 ≤ (mx - mn) / ((bin_count.toNat : ℕ) : ℚ) := by
    apply div_nonneg (by linarith)
    positivity
  refine ⟨_, build_histogram_ok values bin_count mn mx hB hmm, ?_, ?_, ?_, ?_, ?_, ?_⟩
  · simp only [List.length_map, List.length_range]
    omega
  · intro k hk
    rw [get_range_map]
    dsimp only
    rw [binEdge_succ_sub, hcast]
  · intro k hk1 hk
    rw [get_range_map, get_range_map]
  · intro k l hk hl hkl
    rw [get_range_map, get_range_map]
    dsimp only
    exact binEdge_le_binEdge mn mx bin_count.toNat hw (by omega)
  · intro h0
    rw [get_range_map]
    dsimp only
    exact binEdge_zero mn mx bin_count.toNat
  · intro hlast
    rw [get_range_map]
    dsimp only
    simp only [List.length_map, List.length_range]
    rw [show bin_count.toNat - 1 + 1 = bin_count.toNat from by omega]
    exact binEdge_last mn mx bin_count.toNat hBpos

/-- Witness for C7 at the concrete example input. -/
theorem build_histogram_bins_structure_witness :
    (0 : ℤ) < 2 ∧ (1 : ℚ) < 3 ∧
    ∃ bins, build_histogram [1, 3 / 2, 2, 5 / 2] 2 1 3 = Except.ok bins ∧
      (bins.length : ℤ) = 2 := by
  have h := build_histogram_bins_structure [1, 3 / 2, 2, 5 / 2] 2 1 3
    (by norm_num) (by norm_num)
  obtain ⟨bins, hok, hlen, -⟩ := h
  exact ⟨by norm_num, by norm_num, bins, hok, hlen⟩

/-- Two distinct bins cannot both contain a value. -/
lemma inBin_disjoint {mn mx : ℚ} {B : ℕ}
    (hw : 0 ≤ (mx - mn) / (B : ℚ)) {k l : ℕ} (hkl : k < l) (hlB : l < B)
    {v : ℚ} (hk : inBin mn mx B k v = true) (hl : inBin mn mx B l v = true) :
    False := by
  have hkB1 : k + 1 ≠ B := by omega
  unfold inBin at hk hl
  rw [if_neg hkB1] at hk
  have hk2 := of_decide_eq_true hk
  have hl2 : binEdge mn mx B l ≤ v := by
    by_cases hlB1 : l + 1 = B
    · rw [if_pos hlB1] at hl
      exact (of_decide_eq_true hl).1
    · rw [if_neg hlB1] at hl
      exact (of_decide_eq_true hl).1
  have hmon := binEdge_le_binEdge mn mx B hw (show k + 1 ≤ l by omega)
  linarith [hk2.2]

/-- A value below the range minimum or above the range maximum lies in no
bin. -/
lemma inBin_out_of_range {mn mx : ℚ} {B : ℕ} (hB : 0 < B)
    (hw : 0 ≤ (mx - mn) / (B : ℚ)) {v : ℚ} (hv : v < mn ∨ mx < v)
    {k : ℕ} (hkB : k < B) : inBin mn mx B k v = false := by
  unfold inBin
  rcases hv with hlo | hhi
  · have hge : mn ≤ binEdge mn mx B k := by
      have h0 := binEdge_le_binEdge mn mx B hw (Nat.zero_le k)
      rw [binEdge_zero] at h0
      exact h0
    split
    · exact decide_eq_false fun hc => absurd hc.1 (by linarith)
    · exact decide_eq_false fun hc => absurd hc.1 (by linarith)
  · have hle : binEdge mn mx B (k + 1) ≤ mx := by
      have h1 := binEdge_le_binEdge mn mx B hw (show k + 1 ≤ B by omega)
      rw [binEdge_last mn mx B hB] at h1
      exact h1
    split
    · exact decide_eq_false fun hc => absurd hc.2 (by linarith)
    · exact decide_eq_false fun hc => absurd hc.2 (by linarith)

/-- Every in-range value lies in the bin selected by flooring its scaled
offset (clamped to the final bin). -/
lemma inBin_exists {mn mx : ℚ} {B : ℕ} (hB : 0 < B) (hmm : mn < mx)
    {v : ℚ} (hv1 : mn ≤ v) (hv2 : v ≤ mx) :
    inBin mn mx B
      (min (Nat.floor ((v - mn) / ((mx - mn) / (B : ℚ)))) (B - 1)) v = true := by
  have hBQ : (0 : ℚ) < (B : ℚ) := by exact_mod_cast hB
  have hwpos : 0 < (mx - mn) / (B : ℚ) := div_pos (by linarith) hBQ
  have hwne : (mx - mn) / (B : ℚ) ≠ 0 := ne_of_gt hwpos
  have hu0 : 0 ≤ (v - mn) / ((mx - mn) / (B : ℚ)) :=
    div_nonneg (by linarith) hwpos.le
  have huw : (v - mn) / ((mx - mn) / (B : ℚ)) * ((mx - mn) / (B : ℚ)) =
      v - mn := div_mul_cancel₀ _ hwne
  have hlow : binEdge mn mx B
      (min (Nat.floor ((v - mn) / ((mx - mn) / (B : ℚ)))) (B - 1)) ≤ v := by
    unfold binEdge
    have hk : ((min (Nat.floor ((v - mn) / ((mx - mn) / (B : ℚ)))) (B - 1) : ℕ) : ℚ)
        ≤ (v - mn) / ((mx - mn) / (B : ℚ)) := by
      calc ((min (Nat.floor ((v - mn) / ((mx - mn) / (B : ℚ)))) (B - 1) : ℕ) : ℚ)
          ≤ ((Nat.floor ((v - mn) / ((mx - mn) / (B : ℚ))) : ℕ) : ℚ) := by
            exact_mod_cast Nat.min_le_left _ _
        _ ≤ (v - mn) / ((mx - mn) / (B : ℚ)) := Nat.floor_le hu0
    have := mul_le_mul_of_nonneg_right hk hwpos.le
    rw [huw] at this
    linarith
  unfold inBin
  split
  · apply decide_eq_true
    refine ⟨hlow, ?_⟩
    have hlast : min (Nat.floor ((v - mn) / ((mx - mn) / (B : ℚ)))) (B - 1) + 1
        = B := by assumption
    rw [hlast, binEdge_last mn mx B hB]
    exact hv2
  · apply decide_eq_true
    refine ⟨hlow, ?_⟩
    have hne : min (Nat.floor ((v - mn) / ((mx - mn) / (B : ℚ)))) (B - 1) + 1
        ≠ B := by assumption
    have hkfl : min (Nat.floor ((v - mn) / ((mx - mn) / (B : ℚ)))) (B - 1)
        = Nat.floor ((v - mn) / ((mx - mn) / (B : ℚ))) := by omega
    rw [hkfl]
    unfold binEdge
    have hlt : (v - mn) / ((mx - mn) / (B : ℚ)) <
        ((Nat.floor ((v - mn) / ((mx - mn) / (B : ℚ))) : ℕ) : ℚ) + 1 :=
      Nat.lt_floor_add_one _
    have hlt2 : (v - mn) / ((mx - mn) / (B : ℚ)) * ((mx - mn) / (B : ℚ)) <
        (((Nat.floor ((v - mn) / ((mx - mn) / (B : ℚ))) : ℕ) : ℚ) + 1) *
          ((mx - mn) / (B : ℚ)) := by
      exact mul_lt_mul_of_pos_right hlt hwpos
    rw [huw] at hlt2
    push_cast
    linarith

/-- Each value lies in exactly one bin when in range, and in none
otherwise. -/
lemma countP_inBin_range {mn mx : ℚ} {B : ℕ} (hB : 0 < B) (hmm : mn < mx)
    (v : ℚ) :
    (List.range B).countP (fun k => inBin mn mx B k v) =
      if mn ≤ v ∧ v ≤ mx then 1 else 0 := by
  have hBQ : (0 : ℚ) < (B : ℚ) := by exact_mod_cast hB
  have hw : 0 ≤ (mx - mn) / (B : ℚ) :=
    div_nonneg (by linarith) hBQ.le
  by_cases hin : mn ≤ v ∧ v ≤ mx
  · rw [if_pos hin]
    have hk0B : min (Nat.floor ((v - mn) / ((mx - mn) / (B : ℚ)))) (B - 1)
        < B := by omega
    have hmem := inBin_exists hB hmm hin.1 hin.2
    have hcongr : ∀ k ∈ List.range B,
        (inBin mn mx B k v = true ↔
        (k == min (Nat.floor ((v - mn) / ((mx - mn) / (B : ℚ)))) (B - 1)) = true) := by
      intro k hkr
      have hkB := List.mem_range.mp hkr
      by_cases hkq : k = min (Nat.floor ((v - mn) / ((mx - mn) / (B : ℚ)))) (B - 1)
      · subst hkq
        simp [hmem]
      · have hfalse : inBin mn mx B k v = false := by
          by_contra hc
          have htrue : inBin mn mx B k v = true := by
            revert hc
            cases inBin mn mx B k v <;> simp
          rcases Nat.lt_or_ge k (min (Nat.floor ((v - mn) / ((mx - mn) / (B : ℚ)))) (B - 1)) with hlt | hge
          · exact inBin_disjoint hw hlt hk0B htrue hmem
          · have hlt2 : min (Nat.floor ((v - mn) / ((mx - mn) / (B : ℚ)))) (B - 1) < k := by omega
            exact inBin_disjoint hw hlt2 hkB hmem htrue
        simp [hfalse, hkq]
    rw [List.countP_congr hcongr]
    have hnodup := List.nodup_range B
    have hmem2 : min (Nat.floor ((v - mn) / ((mx - mn) / (B : ℚ)))) (B - 1)
        ∈ List.range B := List.mem_range.mpr hk0B
    have hcount : (List.range B).countP
        (fun k => k == min (Nat.floor ((v - mn) / ((mx - mn) / (B : ℚ)))) (B - 1))
        = (List.range B).count
            (min (Nat.floor ((v - mn) / ((mx - mn) / (B : ℚ)))) (B - 1)) := rfl
    rw [hcount]
    exact List.count_eq_one_of_mem hnodup hmem2
  · rw [if_neg hin]
    apply List.countP_eq_zero.mpr
    intro k hkr
    have hkB := List.mem_range.mp hkr
    have hout : v < mn ∨ mx < v := by
      rcases not_and_or.mp hin with h | h
      · exact Or.inl (lt_of_not_le h)
      · exact Or.inr (lt_of_not_le h)
    simp [inBin_out_of_range hB hw hout hkB]

/-- Summing a pointwise sum of two functions over a list splits. -/
lemma sum_map_add {α : Type} (l : List α) (f g : α → ℕ) :
    (l.map fun x => f x + g x).sum = (l.map f).sum + (l.map g).sum := by
  induction l with
  | nil => simp
  | cons a t ih =>
    simp [ih]
    omega

/-- A countP is the sum of the indicator values over the list. -/
lemma countP_eq_sum_map {α : Type} (l : List α) (p : α → Bool) :
    l.countP p = (l.map fun a => if p a then 1 else 0).sum := by
  induction l with
  | nil => simp
  | cons a t ih =>
    rw [List.countP_cons, List.map_cons, List.sum_cons, ih]
    omega

/-- The bin counts of the histogram sum to the number of in-range values. -/
lemma sum_bin_counts (mn mx : ℚ) (B : ℕ) (hB : 0 < B) (hmm : mn < mx)
    (values : List ℚ) :
    ((List.range B).map fun k => values.countP (inBin mn mx B k)).sum =
      values.countP fun v => decide (mn ≤ v ∧ v ≤ mx) := by
  induction values with
  | nil => simp
  | cons v vs ih =>
    have hstep : ((List.range B).map fun k =>
        (v :: vs).countP (inBin mn mx B k)).sum =
        ((List.range B).map fun k =>
          vs.countP (inBin mn mx B k) +
            if inBin mn mx B k v then 1 else 0).sum := by
      congr 1
      apply List.map_congr_left
      intro k hk
      rw [List.countP_cons]
    rw [hstep, sum_map_add, ih, ← countP_eq_sum_map,
      countP_inBin_range hB hmm v, List.countP_cons]
    by_cases hin : mn ≤ v ∧ v ≤ mx
    · simp [hin]
    · simp [hin]

/-- C2: on valid input (non-empty values, positive bin count, increasing
range) `build_histogram` succeeds — out-of-range values cause no error — and
the sum of all bin counts equals the number of input values lying within
[min_value, max_value]; out-of-range values are counted by no bin. -/
theorem build_histogram_counts_sum (values : List ℚ) (bin_count : ℤ)
    (mn mx : ℚ) (hne : values ≠ []) (hB : 0 < bin_count) (hmm : mn < mx) :
    ∃ bins, build_histogram values bin_count mn mx = Except.ok bins ∧
      (bins.map Bin.count).sum =
        values.countP fun v => decide (mn ≤ v ∧ v ≤ mx) := by
  refine ⟨_, build_histogram_ok values bin_count mn mx hB hmm, ?_⟩
  rw [List.map_map]
  have hcomp : (Bin.count ∘ fun k =>
      ({ lower := binEdge mn mx bin_count.toNat k
         upper := binEdge mn mx bin_count.toNat (k + 1)
         count := values.countP (inBin mn mx bin_count.toNat k) } : Bin)) =
      fun k => values.countP (inBin mn mx bin_count.toNat k) := rfl
  rw [hcomp]
  exact sum_bin_counts mn mx bin_count.toNat (by omega) hmm values

/-- Witness for C2 at the concrete example input (one value out of range). -/
theorem build_histogram_counts_sum_witness :
    ([(1 : ℚ), 3 / 2, 2, 5 / 2, 7] ≠ []) ∧ (0 : ℤ) < 2 ∧ (1 : ℚ) < 3 ∧
    ∃ bins, build_histogram [(1 : ℚ), 3 / 2, 2, 5 / 2, 7] 2 1 3 =
      Except.ok bins ∧
      (bins.map Bin.count).sum =
        [(1 : ℚ), 3 / 2, 2, 5 / 2, 7].countP fun v =>
          decide ((1 : ℚ) ≤ v ∧ v ≤ 3) := by
  refine ⟨by simp, by norm_num, by norm_num, ?_⟩
  exact build_histogram_counts_sum [(1 : ℚ), 3 / 2, 2, 5 / 2, 7] 2 1 3
    (by simp) (by norm_num) (by norm_num)
